import Mathlib

set_option linter.unusedSectionVars false

/-!
# Verification of the word-cloud layout engine

Shallow embedding of the `WordCloud` component's layout algorithm
(`src/frontend/src/components/charts/ComparisonTable.jsx`, `WordCloud`,
lines 105–222 of the concatenated charts file): normalization of the
weighted word list, font-size scaling, spiral placement search with
axis-aligned collision rejection, and the resulting placement/dropped
accounting.

Numbers are idealized as an arbitrary linear ordered field `α`
(instantiated at `ℚ` for concrete evaluations).  Two capabilities of the
drawing context are injected as function parameters, exactly as the spec
directs for text measurement:

* `measure : String → ℤ → α` models `ctx.measureText(word.text).width`
  after `ctx.font` has been set to the *rounded* font size;
* `cosA sinA : ℕ → α` model `Math.cos((i * 0.5) % (2 * Math.PI))` and
  `Math.sin((i * 0.5) % (2 * Math.PI))` at attempt `i` — the sequence of
  trigonometric values consumed by the spiral walk (transcendental values
  are not representable exactly, so the sequence is injected; every
  structural property below holds for an arbitrary such sequence).
-/

namespace WordCloud

open List

variable {α : Type} [LinearOrderedField α] [FloorRing α]

/-- JS `a || b` on numbers: `a` when truthy (nonzero), else `b`.
(`NaN` is not representable in an ordered field and is not modelled.) -/
def jsOr (a b : α) : α := if a = 0 then b else a

/-- JS `Math.round x = ⌊x + 1/2⌋`. -/
def jsRound (x : α) : ℤ := ⌊x + 1 / 2⌋

/-- One raw input word: `{ keyword, count, relevance_score }`
(the pass-through `type` field plays no role in the layout). -/
structure Word (α : Type) where
  keyword : String
  count : α
  relevance : α
deriving DecidableEq

/-- One processed word, as built by the `.map` at the end of
`processedWords`: `{ text, size, count, relevance }`. -/
structure ScaledWord (α : Type) where
  text : String
  size : α
  count : α
  relevance : α
deriving DecidableEq

/-- The filter `word.keyword && (word.count > 0 || word.relevance_score > 0)`. -/
def keepWord (w : Word α) : Prop :=
  w.keyword ≠ "" ∧ (0 < w.count ∨ 0 < w.relevance)

instance (w : Word α) : Decidable (keepWord w) := by
  unfold keepWord; infer_instance

/-- The sort key `(word.count || word.relevance_score || 0)` used by the
descending comparator. -/
def wKey (w : Word α) : α := jsOr w.count (jsOr w.relevance 0)

/-- The comparator `(a, b) => (b.count || …) - (a.count || …)` sorts
descending by `wKey`; as a boolean "less-or-equal" for a stable sort:
`a` may stay before `b` iff `wKey b ≤ wKey a`. -/
def wordLE (a b : Word α) : Bool := decide (wKey b ≤ wKey a)

/-- The final `.map` of `processedWords`:
`{ text: keyword, size: count || round(100 * (relevance_score || 0)), … }`. -/
def mkScaled (w : Word α) : ScaledWord α :=
  ⟨w.keyword,
   if w.count = 0 then ((jsRound (jsOr w.relevance 0 * 100) : ℤ) : α) else w.count,
   jsOr w.count 0,
   jsOr w.relevance 0⟩

/-- `processedWords`: filter, stable sort descending by `wKey`,
truncate to `maxWords`, then map to `ScaledWord`s.  JS `Array.prototype.sort`
is stable; it is embedded as `List.mergeSort`. -/
def processWords (maxWords : ℕ) (ws : List (Word α)) : List (ScaledWord α) :=
  ((((ws.filter fun w => decide (keepWord w)).mergeSort wordLE).take maxWords).map mkScaled)

/-- `Math.max(...)` over a list (callers guard non-emptiness). -/
def listMax : List α → α
  | [] => 0
  | x :: xs => xs.foldl max x

/-- `Math.min(...)` over a list (callers guard non-emptiness). -/
def listMin : List α → α
  | [] => 0
  | x :: xs => xs.foldl min x

/-- The four hard-coded color palettes. -/
def youtubeColors : List String :=
  ["#dc2626", "#ea580c", "#f97316", "#d97706", "#ca8a04"]

def blueColors : List String :=
  ["#1e40af", "#2563eb", "#3b82f6", "#60a5fa", "#93c5fd"]

def greenColors : List String :=
  ["#166534", "#16a34a", "#22c55e", "#4ade80", "#86efac"]

def rainbowColors : List String :=
  ["#dc2626", "#ea580c", "#eab308", "#22c55e", "#3b82f6", "#8b5cf6", "#ec4899"]

/-- `colorSchemes[colorScheme] || colorSchemes.youtube`. -/
def schemeColors (s : String) : List String :=
  if s = "youtube" then youtubeColors
  else if s = "blue" then blueColors
  else if s = "green" then greenColors
  else if s = "rainbow" then rainbowColors
  else youtubeColors

/-- The component props that feed the layout. -/
structure Config (α : Type) where
  width : α
  height : α
  maxWords : ℕ
  colorScheme : String
deriving DecidableEq

/-- An axis-aligned rectangle `{ x, y, width, height }`. -/
structure Box (α : Type) where
  x : α
  y : α
  width : α
  height : α
deriving DecidableEq

/-- Everything the per-word placement loop reads: surface size, injected
trigonometric sequences and text measurement, palette, and the font-scaling
constants computed once per layout. -/
structure LayoutParams (α : Type) where
  W : α
  H : α
  cosA : ℕ → α
  sinA : ℕ → α
  measure : String → ℤ → α
  colors : List String
  minF : α
  maxF : α
  minSize : α
  range : α

/-- `fontSize = minFontSize + normalizedSize * (maxFontSize - minFontSize)`
with `normalizedSize = (word.size - minSize) / sizeRange`. -/
def fontSizeOf (P : LayoutParams α) (w : ScaledWord α) : α :=
  P.minF + (w.size - P.minSize) / P.range * (P.maxF - P.minF)

/-- Candidate draw x at attempt `i`:
`centerX + Math.cos(angle) * radius - textWidth / 2` with `radius = 2 * i`. -/
def candX (P : LayoutParams α) (tw : α) (i : ℕ) : α :=
  P.W / 2 + P.cosA i * (2 * (i : α)) - tw / 2

/-- Candidate draw y at attempt `i`:
`centerY + Math.sin(angle) * radius + textHeight / 2` with `radius = 2 * i`. -/
def candY (P : LayoutParams α) (th : α) (i : ℕ) : α :=
  P.H / 2 + P.sinA i * (2 * (i : α)) + th / 2

/-- The bounds check
`x >= 0 && x + textWidth <= canvasWidth && y - textHeight >= 0 && y <= canvasHeight`. -/
def InBounds (P : LayoutParams α) (tw th x y : α) : Prop :=
  0 ≤ x ∧ x + tw ≤ P.W ∧ 0 ≤ y - th ∧ y ≤ P.H

instance (P : LayoutParams α) (tw th x y : α) : Decidable (InBounds P tw th x y) := by
  unfold InBounds; infer_instance

/-- `wordBounds`: the text rectangle inflated by the fixed 5-pixel margin. -/
def inflate (x y tw th : α) : Box α :=
  ⟨x - 5, y - th - 5, tw + 10, th + 10⟩

/-- The strict axis-aligned intersection test of the `.some` callback. -/
def Overlap (b p : Box α) : Prop :=
  b.x < p.x + p.width ∧ b.x + b.width > p.x ∧
  b.y < p.y + p.height ∧ b.y + b.height > p.y

instance (b p : Box α) : Decidable (Overlap b p) := by
  unfold Overlap; infer_instance

/-- `placedWords.some(placed => …)`: candidate box against every stored box. -/
def Collides (boxes : List (Box α)) (b : Box α) : Prop :=
  ∃ p ∈ boxes, Overlap b p

instance (boxes : List (Box α)) (b : Box α) : Decidable (Collides boxes b) := by
  unfold Collides; infer_instance

/-- Attempt `i` succeeds: candidate in bounds and its inflated box
collision-free against the boxes stored so far. -/
def Accepts (P : LayoutParams α) (boxes : List (Box α)) (tw th : α) (i : ℕ) : Prop :=
  InBounds P tw th (candX P tw i) (candY P th i) ∧
    ¬ Collides boxes (inflate (candX P tw i) (candY P th i) tw th)

instance (P : LayoutParams α) (boxes : List (Box α)) (tw th : α) (i : ℕ) :
    Decidable (Accepts P boxes tw th i) := by
  unfold Accepts; infer_instance

/-- `maxAttempts = 50`. -/
def maxAttempts : ℕ := 50

/-- The `while (!placed && attempts < maxAttempts)` loop, with the loop
counter `i` (the current value of `attempts`, with `radius = 2 * i`) and the
remaining iteration budget as structural fuel. -/
def findSpotAux (P : LayoutParams α) (boxes : List (Box α)) (tw th : α) :
    ℕ → ℕ → Option (α × α)
  | _, 0 => none
  | i, fuel + 1 =>
    if Accepts P boxes tw th i then some (candX P tw i, candY P th i)
    else findSpotAux P boxes tw th (i + 1) fuel

/-- The whole spiral search for one word: attempts `0, 1, …, 49`. -/
def findSpot (P : LayoutParams α) (boxes : List (Box α)) (tw th : α) : Option (α × α) :=
  findSpotAux P boxes tw th 0 maxAttempts

/-- One painted word: draw anchor `(x, y)` (as passed to `fillText`),
font size, fill color, the processed `size`, and the margin-inflated
bounding box pushed into `placedWords`. -/
structure Placement (α : Type) where
  text : String
  x : α
  y : α
  fontSize : α
  color : String
  size : α
  box : Box α
deriving DecidableEq

/-- The `processedWords.forEach` body: compute the font size, measure the
text at the rounded font size, run the spiral search, and either register
the placement (pushing its inflated box) or drop the word. -/
def runWords (P : LayoutParams α) :
    ℕ → List (Box α) → List (ScaledWord α) →
      List (Placement α) × List (ScaledWord α)
  | _, _, [] => ([], [])
  | idx, boxes, w :: ws =>
    let fs := fontSizeOf P w
    let tw := P.measure w.text (jsRound fs)
    match findSpot P boxes tw fs with
    | some (x, y) =>
      let b := inflate x y tw fs
      let rest := runWords P (idx + 1) (boxes ++ [b]) ws
      (⟨w.text, x, y, fs, P.colors.getD (idx % P.colors.length) "", w.size, b⟩ :: rest.1,
       rest.2)
    | none =>
      let rest := runWords P (idx + 1) boxes ws
      (rest.1, w :: rest.2)

/-- The engine's output: placements in insertion order, plus the words that
exhausted their attempts. -/
structure LayoutResult (α : Type) where
  placements : List (Placement α)
  dropped : List (ScaledWord α)
deriving DecidableEq

/-- Builds the per-layout parameters from the config and the processed list:
`minFontSize = 0.02 * min(w, h)`, `maxFontSize = 0.08 * min(w, h)`,
`sizeRange = (maxSize - minSize) || 1`. -/
def mkParams (measure : String → ℤ → α) (cosA sinA : ℕ → α) (cfg : Config α)
    (processed : List (ScaledWord α)) : LayoutParams α :=
  let sizes := processed.map ScaledWord.size
  let m := min cfg.width cfg.height
  ⟨cfg.width, cfg.height, cosA, sinA, measure, schemeColors cfg.colorScheme,
   m * (2 / 100), m * (8 / 100), listMin sizes, jsOr (listMax sizes - listMin sizes) 1⟩

/-- The layout effect: normalize the words, and unless the processed list is
empty (the `!processedWords.length` guard), scale and place each word. -/
def layout (measure : String → ℤ → α) (cosA sinA : ℕ → α) (cfg : Config α)
    (words : List (Word α)) : LayoutResult α :=
  let processed := processWords cfg.maxWords words
  if processed.isEmpty then ⟨[], []⟩
  else
    let r := runWords (mkParams measure cosA sinA cfg processed) 0 [] processed
    ⟨r.1, r.2⟩

end WordCloud

namespace WordCloud

variable {α : Type} [LinearOrderedField α] [FloorRing α]

/-! ## Characterization of the spiral search loop -/

theorem findSpotAux_some_iff (P : LayoutParams α) (boxes : List (Box α)) (tw th : α) :
    ∀ (fuel i : ℕ) (x y : α),
      findSpotAux P boxes tw th i fuel = some (x, y) ↔
        ∃ j, i ≤ j ∧ j < i + fuel ∧ Accepts P boxes tw th j ∧
          (∀ k, i ≤ k → k < j → ¬ Accepts P boxes tw th k) ∧
          x = candX P tw j ∧ y = candY P th j := by
  intro fuel
  induction fuel with
  | zero =>
    intro i x y
    simp [findSpotAux]
    intro j h1 h2
    omega
  | succ fuel ih =>
    intro i x y
    rw [findSpotAux]
    by_cases h : Accepts P boxes tw th i
    · rw [if_pos h]
      constructor
      · rintro hx
        injection hx with hx
        injection hx with hx hy
        exact ⟨i, le_refl i, by omega, h, fun k hk1 hk2 => absurd hk1 (by omega),
          hx.symm, hy.symm⟩
      · rintro ⟨j, hij, hjf, hacc, hfirst, hx, hy⟩
        rcases Nat.eq_or_lt_of_le hij with rfl | hlt
        · simp [hx, hy]
        · exact absurd h (hfirst i (le_refl i) hlt)
    · rw [if_neg h]
      rw [ih (i + 1) x y]
      constructor
      · rintro ⟨j, hij, hjf, hacc, hfirst, hx, hy⟩
        refine ⟨j, by omega, by omega, hacc, ?_, hx, hy⟩
        intro k hk1 hk2
        rcases Nat.eq_or_lt_of_le hk1 with rfl | hlt
        · exact h
        · exact hfirst k hlt hk2
      · rintro ⟨j, hij, hjf, hacc, hfirst, hx, hy⟩
        have hij' : i + 1 ≤ j := by
          rcases Nat.eq_or_lt_of_le hij with rfl | hlt
          · exact absurd hacc h
          · omega
        exact ⟨j, hij', by omega, hacc, fun k hk1 hk2 => hfirst k (by omega) hk2, hx, hy⟩

theorem findSpotAux_none_iff (P : LayoutParams α) (boxes : List (Box α)) (tw th : α) :
    ∀ (fuel i : ℕ),
      findSpotAux P boxes tw th i fuel = none ↔
        ∀ j, i ≤ j → j < i + fuel → ¬ Accepts P boxes tw th j := by
  intro fuel
  induction fuel with
  | zero =>
    intro i
    simp [findSpotAux]
    intro j h1 h2
    omega
  | succ fuel ih =>
    intro i
    rw [findSpotAux]
    by_cases h : Accepts P boxes tw th i
    · rw [if_pos h]
      simp only [reduceCtorEq, false_iff, not_forall]
      exact ⟨i, le_refl i, by omega, not_not_intro h⟩
    · rw [if_neg h, ih (i + 1)]
      constructor
      · intro hall j hj1 hj2
        rcases Nat.eq_or_lt_of_le hj1 with rfl | hlt
        · exact h
        · exact hall j hlt (by omega)
      · intro hall j hj1 hj2
        exact hall j (by omega) (by omega)

/-- The spiral search returns the first accepted attempt among `0, …, 49`. -/
theorem findSpot_some_iff (P : LayoutParams α) (boxes : List (Box α)) (tw th x y : α) :
    findSpot P boxes tw th = some (x, y) ↔
      ∃ j, j < maxAttempts ∧ Accepts P boxes tw th j ∧
        (∀ k, k < j → ¬ Accepts P boxes tw th k) ∧
        x = candX P tw j ∧ y = candY P th j := by
  rw [findSpot, findSpotAux_some_iff]
  constructor
  · rintro ⟨j, _, hj, hacc, hfirst, hx, hy⟩
    exact ⟨j, by omega, hacc, fun k hk => hfirst k (Nat.zero_le k) hk, hx, hy⟩
  · rintro ⟨j, hj, hacc, hfirst, hx, hy⟩
    exact ⟨j, Nat.zero_le j, by omega, hacc, fun k _ hk => hfirst k hk, hx, hy⟩

theorem findSpot_none_iff (P : LayoutParams α) (boxes : List (Box α)) (tw th : α) :
    findSpot P boxes tw th = none ↔
      ∀ j, j < maxAttempts → ¬ Accepts P boxes tw th j := by
  rw [findSpot, findSpotAux_none_iff]
  constructor
  · intro hall j hj
    exact hall j (Nat.zero_le j) (by omega)
  · intro hall j _ hj
    exact hall j (by omega)

/-- An accepted spot is in bounds and its inflated box avoids all stored boxes. -/
theorem findSpot_some_props {P : LayoutParams α} {boxes : List (Box α)} {tw th x y : α}
    (h : findSpot P boxes tw th = some (x, y)) :
    InBounds P tw th x y ∧ ¬ Collides boxes (inflate x y tw th) := by
  rcases (findSpot_some_iff P boxes tw th x y).1 h with ⟨j, _, ⟨hib, hnc⟩, _, hx, hy⟩
  subst hx
  subst hy
  exact ⟨hib, hnc⟩

end WordCloud

namespace WordCloud

variable {α : Type} [LinearOrderedField α] [FloorRing α]

/-! ## Structural lemmas about the per-word loop -/

theorem Overlap_comm {b p : Box α} (h : Overlap b p) : Overlap p b := by
  obtain ⟨h1, h2, h3, h4⟩ := h
  exact ⟨h2, h1, h4, h3⟩

/-- Shorthand for the measured text width of a processed word. -/
def twOf (P : LayoutParams α) (w : ScaledWord α) : α :=
  P.measure w.text (jsRound (fontSizeOf P w))

theorem runWords_length (P : LayoutParams α) :
    ∀ (ws : List (ScaledWord α)) (idx : ℕ) (boxes : List (Box α)),
      (runWords P idx boxes ws).1.length + (runWords P idx boxes ws).2.length = ws.length := by
  intro ws
  induction ws with
  | nil => intro idx boxes; simp [runWords]
  | cons w ws ih =>
    intro idx boxes
    simp only [runWords]
    split
    · rename_i x y heq
      have h := ih (idx + 1)
        (boxes ++ [inflate x y (P.measure w.text (jsRound (fontSizeOf P w))) (fontSizeOf P w)])
      simp only [List.length_cons] at h ⊢
      omega
    · have h := ih (idx + 1) boxes
      simp only [List.length_cons] at h ⊢
      omega

theorem runWords_dropped_sub (P : LayoutParams α) :
    ∀ (ws : List (ScaledWord α)) (idx : ℕ) (boxes : List (Box α)),
      (runWords P idx boxes ws).2 ⊆ ws := by
  intro ws
  induction ws with
  | nil => intro idx boxes; simp [runWords]
  | cons w ws ih =>
    intro idx boxes
    simp only [runWords]
    split
    · exact fun a ha => List.mem_cons_of_mem w (ih _ _ ha)
    · intro a ha
      rcases List.mem_cons.1 ha with rfl | ha
      · exact List.mem_cons_self _ _
      · exact List.mem_cons_of_mem w (ih _ _ ha)

/-- Every placement produced by the loop comes from one of the processed words:
its text, size and font size are that word's, its recorded box is the inflated
text rectangle at the accepted position, and the position was returned by the
spiral search against some intermediate collision set. -/
theorem runWords_mem_shape (P : LayoutParams α) :
    ∀ (ws : List (ScaledWord α)) (idx : ℕ) (boxes : List (Box α)) (p : Placement α),
      p ∈ (runWords P idx boxes ws).1 →
        ∃ w ∈ ws, p.text = w.text ∧ p.size = w.size ∧ p.fontSize = fontSizeOf P w ∧
          p.box = inflate p.x p.y (twOf P w) (fontSizeOf P w) ∧
          ∃ boxes2, findSpot P boxes2 (twOf P w) (fontSizeOf P w) = some (p.x, p.y) := by
  intro ws
  induction ws with
  | nil => intro idx boxes p hp; simp [runWords] at hp
  | cons w ws ih =>
    intro idx boxes p hp
    simp only [runWords] at hp
    revert hp
    split
    · rename_i x y heq
      intro hp
      rcases List.mem_cons.1 hp with rfl | hp
      · exact ⟨w, List.mem_cons_self _ _, rfl, rfl, rfl, rfl, boxes, heq⟩
      · obtain ⟨w2, hw2, h⟩ := ih _ _ _ hp
        exact ⟨w2, List.mem_cons_of_mem w hw2, h⟩
    · intro hp
      obtain ⟨w2, hw2, h⟩ := ih _ _ _ hp
      exact ⟨w2, List.mem_cons_of_mem w hw2, h⟩

/-- Every placement's box avoids every box already registered when the loop
started. -/
theorem runWords_avoid (P : LayoutParams α) :
    ∀ (ws : List (ScaledWord α)) (idx : ℕ) (boxes : List (Box α)),
      ∀ p ∈ (runWords P idx boxes ws).1, ∀ c ∈ boxes, ¬ Overlap p.box c := by
  intro ws
  induction ws with
  | nil => intro idx boxes p hp; simp [runWords] at hp
  | cons w ws ih =>
    intro idx boxes p hp
    simp only [runWords] at hp
    revert hp
    split
    · rename_i x y heq
      intro hp c hc
      rcases List.mem_cons.1 hp with rfl | hp
      · have := (findSpot_some_props heq).2
        intro hov
        exact this ⟨c, hc, hov⟩
      · exact ih _ _ _ hp c (List.mem_append_left _ hc)
    · intro hp c hc
      exact ih _ _ _ hp c hc

/-- The placements produced by the loop are pairwise non-overlapping. -/
theorem runWords_pairwise (P : LayoutParams α) :
    ∀ (ws : List (ScaledWord α)) (idx : ℕ) (boxes : List (Box α)),
      List.Pairwise (fun p q => ¬ Overlap p.box q.box) (runWords P idx boxes ws).1 := by
  intro ws
  induction ws with
  | nil => intro idx boxes; simp [runWords]
  | cons w ws ih =>
    intro idx boxes
    simp only [runWords]
    split
    · rename_i x y heq
      refine List.Pairwise.cons ?_ (ih _ _)
      intro q hq hov
      have hb := runWords_avoid P ws (idx + 1) _ q hq
        (inflate x y (P.measure w.text (jsRound (fontSizeOf P w))) (fontSizeOf P w)) (by simp)
      exact hb (Overlap_comm hov)
    · exact ih _ _

/-- If the spiral search fails for every word of `ws` against every collision
set, then nothing is placed and every word is dropped in order. -/
theorem runWords_all_none (P : LayoutParams α) :
    ∀ (ws : List (ScaledWord α)) (idx : ℕ) (boxes : List (Box α)),
      (∀ w ∈ ws, ∀ bs, findSpot P bs (twOf P w) (fontSizeOf P w) = none) →
      runWords P idx boxes ws = ([], ws) := by
  intro ws
  induction ws with
  | nil => intro idx boxes _; simp [runWords]
  | cons w ws ih =>
    intro idx boxes hall
    simp only [runWords]
    split
    · rename_i x y heq
      have h2 := hall w (List.mem_cons_self _ _) boxes
      simp only [twOf] at h2
      rw [h2] at heq
      cases heq
    · rw [ih _ _ (fun v hv => hall v (List.mem_cons_of_mem w hv))]

end WordCloud

namespace WordCloud

variable {α : Type} [LinearOrderedField α] [FloorRing α]

/-! ## List extrema -/

theorem le_foldl_max : ∀ (l : List α) (a : α), a ≤ l.foldl max a := by
  intro l
  induction l with
  | nil => intro a; simp
  | cons x l ih => intro a; exact le_trans (le_max_left a x) (ih (max a x))

theorem mem_le_foldl_max : ∀ (l : List α) (a x : α), x ∈ l → x ≤ l.foldl max a := by
  intro l
  induction l with
  | nil => intro a x hx; simp at hx
  | cons y l ih =>
    intro a x hx
    rcases List.mem_cons.1 hx with rfl | hx
    · exact le_trans (le_max_right a x) (le_foldl_max l (max a x))
    · exact ih (max a y) x hx

theorem foldl_min_le : ∀ (l : List α) (a : α), l.foldl min a ≤ a := by
  intro l
  induction l with
  | nil => intro a; simp
  | cons x l ih => intro a; exact le_trans (ih (min a x)) (min_le_left a x)

theorem foldl_min_le_mem : ∀ (l : List α) (a x : α), x ∈ l → l.foldl min a ≤ x := by
  intro l
  induction l with
  | nil => intro a x hx; simp at hx
  | cons y l ih =>
    intro a x hx
    rcases List.mem_cons.1 hx with rfl | hx
    · exact le_trans (foldl_min_le l (min a x)) (min_le_right a x)
    · exact ih (min a y) x hx

theorem le_listMax {l : List α} {x : α} (h : x ∈ l) : x ≤ listMax l := by
  cases l with
  | nil => simp at h
  | cons y t =>
    rcases List.mem_cons.1 h with rfl | h
    · exact le_foldl_max t x
    · exact mem_le_foldl_max t y x h

theorem listMin_le {l : List α} {x : α} (h : x ∈ l) : listMin l ≤ x := by
  cases l with
  | nil => simp at h
  | cons y t =>
    rcases List.mem_cons.1 h with rfl | h
    · exact foldl_min_le t x
    · exact foldl_min_le_mem t y x h

theorem listMin_le_listMax {l : List α} (h : l ≠ []) : listMin l ≤ listMax l := by
  cases l with
  | nil => exact absurd rfl h
  | cons y t => exact le_trans (listMin_le (List.mem_cons_self y t)) (le_listMax (List.mem_cons_self y t))

/-! ## The sort key survives processing -/

/-- The weight of a processed word (`count || relevance || 0` on the mapped
fields), matching the raw word's sort key. -/
def sKey (w : ScaledWord α) : α := jsOr w.count (jsOr w.relevance 0)

theorem sKey_mkScaled (w : Word α) : sKey (mkScaled w) = wKey w := by
  simp only [sKey, mkScaled, wKey, jsOr]
  split_ifs <;> simp_all

theorem wordLE_trans : ∀ (a b c : Word α), wordLE a b → wordLE b c → wordLE a c := by
  intro a b c h1 h2
  simp only [wordLE, decide_eq_true_eq] at h1 h2 ⊢
  exact le_trans h2 h1

theorem wordLE_total : ∀ (a b : Word α), wordLE a b || wordLE b a := by
  intro a b
  simp only [wordLE, Bool.or_eq_true, decide_eq_true_eq]
  exact le_total (wKey b) (wKey a)

/-- The processed list is ranked weight-descending. -/
theorem processWords_sorted (n : ℕ) (ws : List (Word α)) :
    List.Pairwise (fun a b => sKey b ≤ sKey a) (processWords n ws) := by
  unfold processWords
  rw [List.pairwise_map]
  have hs : List.Pairwise (fun a b => wordLE a b)
      ((ws.filter fun w => decide (keepWord w)).mergeSort wordLE) :=
    List.sorted_mergeSort wordLE_trans wordLE_total _
  have ht : List.Pairwise (fun a b => wordLE a b)
      (((ws.filter fun w => decide (keepWord w)).mergeSort wordLE).take n) :=
    hs.sublist (List.take_sublist n _)
  refine ht.imp ?_
  intro a b hab
  rw [sKey_mkScaled, sKey_mkScaled]
  simpa [wordLE] using hab

/-- `len(processed) = min(maxWords, number of kept words)`. -/
theorem processWords_length (n : ℕ) (ws : List (Word α)) :
    (processWords n ws).length = min n (ws.filter fun w => decide (keepWord w)).length := by
  unfold processWords
  rw [List.length_map, List.length_take, List.length_mergeSort]

end WordCloud

namespace WordCloud

variable {α : Type} [LinearOrderedField α] [FloorRing α]

/-! ## The embedded sort is THE stable descending sort -/

/-- "may come no later than": descending comparison of sort keys, as a
relation (the propositional counterpart of `wordLE`). -/
def wordGE (a b : Word α) : Prop := wKey b ≤ wKey a

instance : DecidableRel (wordGE (α := α)) := fun a b => by
  unfold wordGE; infer_instance

instance : IsTotal (Word α) (wordGE (α := α)) :=
  ⟨fun a b => le_total (wKey b) (wKey a)⟩

instance : IsTrans (Word α) (wordGE (α := α)) :=
  ⟨fun _ _ _ h1 h2 => le_trans h2 h1⟩

theorem orderedInsert_append (a : Word α) :
    ∀ (l₁ l₂ : List (Word α)), (∀ b ∈ l₁, ¬ wordGE a b) →
      (∀ c ∈ l₂.head?, wordGE a c) →
      List.orderedInsert wordGE a (l₁ ++ l₂) = l₁ ++ a :: l₂ := by
  intro l₁
  induction l₁ with
  | nil =>
    intro l₂ h1 h2
    cases l₂ with
    | nil => simp [List.orderedInsert]
    | cons c t =>
      simp only [List.nil_append]
      rw [List.orderedInsert, if_pos (h2 c (by simp))]
  | cons b l₁ ih =>
    intro l₂ h1 h2
    simp only [List.cons_append]
    rw [List.orderedInsert, if_neg (h1 b (List.mem_cons_self b l₁))]
    rw [ih l₂ (fun v hv => h1 v (List.mem_cons_of_mem b hv)) h2]

/-- Merge sort with the descending comparator coincides with stable insertion
sort for the same priority relation: the embedded JS sort is exactly the
stable descending-by-weight sort. -/
theorem mergeSort_eq_stable_insertion :
    ∀ (l : List (Word α)), l.mergeSort wordLE = List.insertionSort wordGE l := by
  intro l
  induction l with
  | nil => simp
  | cons a l ih =>
    obtain ⟨l₁, l₂, h1, h2, h3⟩ := List.mergeSort_cons wordLE_trans wordLE_total a l
    have hs := List.sorted_mergeSort wordLE_trans wordLE_total (a :: l)
    rw [h1] at hs
    have hl1 : ∀ b ∈ l₁, ¬ wordGE a b := by
      intro b hb hge
      have h4 := h3 b hb
      simp only [wordLE, Bool.not_eq_true', decide_eq_false_iff_not] at h4
      exact h4 hge
    have hhead : ∀ c ∈ l₂.head?, wordGE a c := by
      intro c hc
      cases l₂ with
      | nil => simp at hc
      | cons d t =>
        simp only [List.head?_cons, Option.mem_some_iff] at hc
        subst hc
        have hmid := (List.pairwise_append.1 hs).2.1
        have := (List.pairwise_cons.1 hmid).1 d (List.mem_cons_self d t)
        simpa [wordLE, wordGE] using this
    rw [h1, List.insertionSort, ← ih, h2]
    exact (orderedInsert_append a l₁ l₂ hl1 hhead).symm

end WordCloud

namespace WordCloud

variable {α : Type} [LinearOrderedField α] [FloorRing α]

/-! ## Font-size arithmetic and layout bridging -/

theorem foldl_min_choice : ∀ (l : List α) (a : α), l.foldl min a = a ∨ l.foldl min a ∈ l := by
  intro l
  induction l with
  | nil => intro a; left; rfl
  | cons x l ih =>
    intro a
    rcases ih (min a x) with h | h
    · rcases min_choice a x with hax | hax
      · left; rw [List.foldl_cons, h, hax]
      · right; rw [List.foldl_cons, h, hax]; exact List.mem_cons_self x l
    · right; exact List.mem_cons_of_mem x h

theorem listMin_mem {l : List α} (h : l ≠ []) : listMin l ∈ l := by
  cases l with
  | nil => exact absurd rfl h
  | cons x t =>
    rcases foldl_min_choice t x with h2 | h2
    · rw [listMin, h2]; exact List.mem_cons_self x t
    · exact List.mem_cons_of_mem x h2

theorem layout_of_empty (measure : String → ℤ → α) (cosA sinA : ℕ → α) (cfg : Config α)
    (ws : List (Word α)) (h : processWords cfg.maxWords ws = []) :
    layout measure cosA sinA cfg ws = ⟨[], []⟩ := by
  unfold layout
  rw [if_pos (by rw [h]; rfl)]

theorem layout_of_ne (measure : String → ℤ → α) (cosA sinA : ℕ → α) (cfg : Config α)
    (ws : List (Word α)) (h : processWords cfg.maxWords ws ≠ []) :
    layout measure cosA sinA cfg ws =
      ⟨(runWords (mkParams measure cosA sinA cfg (processWords cfg.maxWords ws)) 0 []
          (processWords cfg.maxWords ws)).1,
       (runWords (mkParams measure cosA sinA cfg (processWords cfg.maxWords ws)) 0 []
          (processWords cfg.maxWords ws)).2⟩ := by
  unfold layout
  rw [if_neg (by simpa [List.isEmpty_iff] using h)]

theorem mkParams_norm_le_one (measure : String → ℤ → α) (cosA sinA : ℕ → α) (cfg : Config α)
    (processed : List (ScaledWord α)) (w : ScaledWord α) (hw : w ∈ processed) :
    (w.size - (mkParams measure cosA sinA cfg processed).minSize) /
      (mkParams measure cosA sinA cfg processed).range ≤ 1 := by
  have h1 : listMin (processed.map ScaledWord.size) ≤ w.size :=
    listMin_le (List.mem_map_of_mem _ hw)
  have h2 : w.size ≤ listMax (processed.map ScaledWord.size) :=
    le_listMax (List.mem_map_of_mem _ hw)
  simp only [mkParams, jsOr]
  split_ifs with h
  · have hws : w.size = listMin (processed.map ScaledWord.size) := by
      have := sub_eq_zero.1 h
      exact le_antisymm (by rw [this] at h2; exact h2) h1
    rw [hws, sub_self, zero_div]
    exact zero_le_one
  · have hlt : 0 < listMax (processed.map ScaledWord.size) -
        listMin (processed.map ScaledWord.size) :=
      lt_of_le_of_ne (sub_nonneg.2 (h1.trans h2)) (Ne.symm h)
    rw [div_le_one hlt]
    linarith

theorem fontSizeOf_mono {P : LayoutParams α} (hr : 0 < P.range) (hF : P.minF ≤ P.maxF)
    {v w : ScaledWord α} (h : v.size ≤ w.size) : fontSizeOf P v ≤ fontSizeOf P w := by
  unfold fontSizeOf
  have key : (v.size - P.minSize) / P.range * (P.maxF - P.minF) ≤
      (w.size - P.minSize) / P.range * (P.maxF - P.minF) := by
    apply mul_le_mul_of_nonneg_right _ (sub_nonneg.2 hF)
    rw [div_eq_mul_inv, div_eq_mul_inv]
    exact mul_le_mul_of_nonneg_right (sub_le_sub_right h _) (inv_nonneg.2 hr.le)
  linarith

theorem fontSizeOf_ge_maxF {P : LayoutParams α} (hF : P.maxF ≤ P.minF)
    {w : ScaledWord α} (hnorm : (w.size - P.minSize) / P.range ≤ 1) :
    P.maxF ≤ fontSizeOf P w := by
  unfold fontSizeOf
  have h2 : (0 : α) ≤ (1 - (w.size - P.minSize) / P.range) * (P.minF - P.maxF) :=
    mul_nonneg (by linarith) (by linarith)
  nlinarith [h2]

theorem fontSizeOf_eq_minF {P : LayoutParams α} {w : ScaledWord α}
    (h : w.size = P.minSize) : fontSizeOf P w = P.minF := by
  unfold fontSizeOf
  rw [h, sub_self, zero_div, zero_mul, add_zero]

theorem no_accept_neg_width {P : LayoutParams α} {boxes : List (Box α)} {tw th : α} {i : ℕ}
    (hW : P.W < 0) (htw : 0 ≤ tw) : ¬ Accepts P boxes tw th i := by
  rintro ⟨⟨h1, h2, _, _⟩, -⟩
  linarith

theorem no_accept_tall {P : LayoutParams α} {boxes : List (Box α)} {tw th : α} {i : ℕ}
    (hth : P.H < th) : ¬ Accepts P boxes tw th i := by
  rintro ⟨⟨_, _, h3, h4⟩, -⟩
  linarith

end WordCloud

namespace WordCloud

variable {α : Type} [LinearOrderedField α] [FloorRing α]

/-! ## Claim C1 -/

/-- C1: No-overlap invariant — for every input term list and config (and any
injected measurement/trigonometric functions), the margin-inflated bounding
boxes of the layout's placements are pairwise non-intersecting under the
axis-aligned intersection test: the collision index only ever accepted a
candidate box that failed the test against every previously stored box. -/
theorem claim_C1_no_overlap (measure : String → ℤ → α) (cosA sinA : ℕ → α)
    (cfg : Config α) (ws : List (Word α)) :
    List.Pairwise (fun p q => ¬ Overlap p.box q.box)
      (layout measure cosA sinA cfg ws).placements := by
  by_cases h : processWords cfg.maxWords ws = []
  · rw [layout_of_empty measure cosA sinA cfg ws h]
    exact List.Pairwise.nil
  · rw [layout_of_ne measure cosA sinA cfg ws h]
    exact runWords_pairwise _ _ 0 []

/-! ## Claim C3 -/

/-- C3: Determinism — with text measurement (and the trigonometric sequences)
taken as fixed injected functions, running the layout twice with identical
arguments yields identical results: the layout is a pure function of its
arguments, with no hidden state or randomness. -/
theorem claim_C3_deterministic (measure : String → ℤ → α) (cosA sinA : ℕ → α)
    (cfg : Config α) (ws : List (Word α)) (r1 r2 : LayoutResult α)
    (h1 : r1 = layout measure cosA sinA cfg ws)
    (h2 : r2 = layout measure cosA sinA cfg ws) : r1 = r2 :=
  h1.trans h2.symm

/-- C3 witness: two runs at a concrete input coincide. -/
theorem claim_C3_deterministic_witness :
    layout (α := ℚ) (fun _ _ => 10) (fun _ => 1) (fun _ => 0) ⟨400, 300, 50, "youtube"⟩
        [⟨"a", 7, 0⟩] =
      layout (α := ℚ) (fun _ _ => 10) (fun _ => 1) (fun _ => 0) ⟨400, 300, 50, "youtube"⟩
        [⟨"a", 7, 0⟩] :=
  claim_C3_deterministic (fun _ _ => 10) (fun _ => 1) (fun _ => 0) ⟨400, 300, 50, "youtube"⟩
    [⟨"a", 7, 0⟩] _ _ rfl rfl

/-! ## Claim C5 -/

unseal Rat.add Rat.mul Rat.sub Rat.inv List.merge List.mergeSort in
/-- C5 counterexample: the claimed bound
`len(placements) + len(dropped) = min(maxTerms, #terms with weight > 0)`
fails at the single term `{keyword: "", count: 5}`: its weight is positive,
but the filter also requires a non-empty keyword, so the term is discarded
during normalization and never reaches either set. -/
theorem claim_C5_counterexample :
    ¬ ((layout (α := ℚ) (fun _ _ => 10) (fun _ => 1) (fun _ => 0) ⟨400, 300, 50, "youtube"⟩
          [⟨"", 5, 0⟩]).placements.length +
        (layout (α := ℚ) (fun _ _ => 10) (fun _ => 1) (fun _ => 0) ⟨400, 300, 50, "youtube"⟩
          [⟨"", 5, 0⟩]).dropped.length =
        min 50 (([⟨"", 5, 0⟩] : List (Word ℚ)).filter fun w => decide (0 < wKey w)).length) := by
  decide

/-- C5 (amended): every term that survives normalization but exhausts its
attempts is recorded in the dropped set (never an error), and
`len(placements) + len(dropped)` equals `min(maxTerms, n)` where `n` counts
the input terms that pass the code's filter — non-empty text AND
(count > 0 or relevance_score > 0) — rather than the terms with positive
weight. -/
theorem claim_C5_count_bound (measure : String → ℤ → α) (cosA sinA : ℕ → α)
    (cfg : Config α) (ws : List (Word α)) :
    ((layout measure cosA sinA cfg ws).placements.length +
        (layout measure cosA sinA cfg ws).dropped.length =
      min cfg.maxWords ((ws.filter fun w => decide (keepWord w)).length)) ∧
    ∀ w ∈ (layout measure cosA sinA cfg ws).dropped, w ∈ processWords cfg.maxWords ws := by
  by_cases h : processWords cfg.maxWords ws = []
  · rw [layout_of_empty measure cosA sinA cfg ws h]
    constructor
    · have h0 : min cfg.maxWords ((ws.filter fun w => decide (keepWord w)).length) = 0 := by
        rw [← processWords_length cfg.maxWords ws, h]
        rfl
      simp [h0]
    · simp
  · rw [layout_of_ne measure cosA sinA cfg ws h]
    constructor
    · have hl := runWords_length (mkParams measure cosA sinA cfg (processWords cfg.maxWords ws))
        (processWords cfg.maxWords ws) 0 []
      rw [processWords_length] at hl
      exact hl
    · exact fun w hw => runWords_dropped_sub _ _ 0 [] hw

end WordCloud

namespace WordCloud

variable {α : Type} [LinearOrderedField α] [FloorRing α]

/-! ## Claim C2 -/

unseal Rat.add Rat.mul Rat.sub Rat.inv List.merge List.mergeSort in
/-- C2 counterexample: the bounds check is applied to the raw text rectangle,
so a margin-inflated bounding box may protrude: with a term measured at the
full surface width, the accepted placement has `box.x = -5 < 0` (and
`box.x + box.width = 405 > 400`). -/
theorem claim_C2_counterexample :
    ∃ p ∈ (layout (α := ℚ) (fun _ _ => 400) (fun _ => 1) (fun _ => 0)
        ⟨400, 300, 50, "youtube"⟩ [⟨"a", 1, 0⟩]).placements,
      ¬ (0 ≤ p.box.x ∧ p.box.x + p.box.width ≤ 400 ∧
         0 ≤ p.box.y ∧ p.box.y + p.box.height ≤ 300) := by
  decide

/-- C2 (amended): the in-bounds guarantee holds for the occupied text
rectangle, i.e. the bounding box deflated by the fixed 5-pixel collision
margin: for every placement, that rectangle lies within
`[0, width] × [0, height]` (the inflated box itself may stick out by up to
the margin). -/
theorem claim_C2_bounds (measure : String → ℤ → α) (cosA sinA : ℕ → α)
    (cfg : Config α) (ws : List (Word α)) (p : Placement α)
    (hp : p ∈ (layout measure cosA sinA cfg ws).placements) :
    0 ≤ p.box.x + 5 ∧ p.box.x + p.box.width - 5 ≤ cfg.width ∧
    0 ≤ p.box.y + 5 ∧ p.box.y + p.box.height - 5 ≤ cfg.height := by
  by_cases h : processWords cfg.maxWords ws = []
  · rw [layout_of_empty measure cosA sinA cfg ws h] at hp
    simp at hp
  · rw [layout_of_ne measure cosA sinA cfg ws h] at hp
    obtain ⟨w, hw, ht, hs, hf, hbox, boxes2, hfind⟩ :=
      runWords_mem_shape _ _ 0 [] p hp
    obtain ⟨h1, h2, h3, h4⟩ := (findSpot_some_props hfind).1
    have hW : (mkParams measure cosA sinA cfg (processWords cfg.maxWords ws)).W = cfg.width :=
      rfl
    have hH : (mkParams measure cosA sinA cfg (processWords cfg.maxWords ws)).H = cfg.height :=
      rfl
    rw [hW] at h2
    rw [hH] at h4
    rw [hbox]
    simp only [inflate]
    refine ⟨by linarith, by linarith, by linarith, by linarith⟩

unseal Rat.add Rat.mul Rat.sub Rat.inv List.merge List.mergeSort in
/-- C2 witness: the amended bounds theorem applied at a concrete layout. -/
theorem claim_C2_bounds_witness :
    (⟨"a", 195, 153, 6, "#dc2626", 7, ⟨190, 142, 20, 16⟩⟩ : Placement ℚ) ∈
        (layout (α := ℚ) (fun _ _ => 10) (fun _ => 1) (fun _ => 0)
          ⟨400, 300, 50, "youtube"⟩ [⟨"a", 7, 0⟩]).placements ∧
      (0 ≤ (⟨190, 142, 20, 16⟩ : Box ℚ).x + 5 ∧
       (⟨190, 142, 20, 16⟩ : Box ℚ).x + (⟨190, 142, 20, 16⟩ : Box ℚ).width - 5 ≤ 400 ∧
       0 ≤ (⟨190, 142, 20, 16⟩ : Box ℚ).y + 5 ∧
       (⟨190, 142, 20, 16⟩ : Box ℚ).y + (⟨190, 142, 20, 16⟩ : Box ℚ).height - 5 ≤ 300) :=
  ⟨by decide,
   claim_C2_bounds (fun _ _ => 10) (fun _ => 1) (fun _ => 0) ⟨400, 300, 50, "youtube"⟩
     [⟨"a", 7, 0⟩] ⟨"a", 195, 153, 6, "#dc2626", 7, ⟨190, 142, 20, 16⟩⟩ (by decide)⟩

/-! ## Claim C4 -/

unseal Rat.add Rat.mul Rat.sub Rat.inv List.merge List.mergeSort in
/-- C4 counterexample: with all weights equal (two terms of count 7), the
placed terms get font size `minFontSize = 6`, not
`maxFontSize = min(400,300) * 0.08 = 24` as the claim states: the code's
`sizeRange = (max - min) || 1` makes `normalizedSize = 0`. -/
theorem claim_C4_counterexample :
    ∃ p ∈ (layout (α := ℚ) (fun _ _ => 10) (fun _ => 1) (fun _ => 0)
        ⟨400, 300, 50, "youtube"⟩ [⟨"a", 7, 0⟩, ⟨"b", 7, 0⟩]).placements,
      p.fontSize ≠ min (400 : ℚ) 300 * (8 / 100) := by
  decide

/-- C4 (amended): in a flat distribution (all processed sizes equal), every
placed term's font size equals `minFontSize = 0.02 * min(width, height)` —
the minimum, not the claimed maximum: `sizeRange` falls back to 1 and
`normalizedSize` is 0. -/
theorem claim_C4_flat_min (measure : String → ℤ → α) (cosA sinA : ℕ → α)
    (cfg : Config α) (ws : List (Word α))
    (hflat : ∀ v ∈ processWords cfg.maxWords ws, ∀ w ∈ processWords cfg.maxWords ws,
      v.size = w.size) :
    ∀ p ∈ (layout measure cosA sinA cfg ws).placements,
      p.fontSize = min cfg.width cfg.height * (2 / 100) := by
  intro p hp
  by_cases h : processWords cfg.maxWords ws = []
  · rw [layout_of_empty measure cosA sinA cfg ws h] at hp
    simp at hp
  · rw [layout_of_ne measure cosA sinA cfg ws h] at hp
    obtain ⟨w, hw, ht, hs, hf, hbox, boxes2, hfind⟩ :=
      runWords_mem_shape _ _ 0 [] p hp
    have hne : (processWords cfg.maxWords ws).map ScaledWord.size ≠ [] := by
      simpa using h
    obtain ⟨u, hu, husz⟩ := List.mem_map.1 (listMin_mem hne)
    have hws : w.size =
        (mkParams measure cosA sinA cfg (processWords cfg.maxWords ws)).minSize := by
      simp only [mkParams]
      rw [← husz]
      exact hflat w hw u hu
    rw [hf, fontSizeOf_eq_minF hws]
    simp [mkParams]

unseal Rat.add Rat.mul Rat.sub Rat.inv List.merge List.mergeSort in
/-- C4 witness: the amended flat-distribution theorem at a concrete input. -/
theorem claim_C4_flat_min_witness :
    (∀ v ∈ processWords (α := ℚ) 50 [⟨"a", 7, 0⟩, ⟨"b", 7, 0⟩],
      ∀ w ∈ processWords (α := ℚ) 50 [⟨"a", 7, 0⟩, ⟨"b", 7, 0⟩], v.size = w.size) ∧
    ∀ p ∈ (layout (α := ℚ) (fun _ _ => 10) (fun _ => 1) (fun _ => 0)
        ⟨400, 300, 50, "youtube"⟩ [⟨"a", 7, 0⟩, ⟨"b", 7, 0⟩]).placements,
      p.fontSize = min (400 : ℚ) 300 * (2 / 100) :=
  ⟨by decide,
   claim_C4_flat_min (fun _ _ => 10) (fun _ => 1) (fun _ => 0) ⟨400, 300, 50, "youtube"⟩
     [⟨"a", 7, 0⟩, ⟨"b", 7, 0⟩] (by decide)⟩

end WordCloud

namespace WordCloud

variable {α : Type} [LinearOrderedField α] [FloorRing α]

/-! ## Claim C7 -/

/-- Normalization as the CLAIM words it: drop terms of non-positive weight,
stable-sort descending by weight (insertion sort with a reflexive descending
relation is the stable descending sort), truncate to `maxTerms`, build the
processed entries. -/
def specNormalize (n : ℕ) (ws : List (Word α)) : List (ScaledWord α) :=
  (((ws.filter fun w => decide (0 < wKey w)).insertionSort wordGE).take n).map mkScaled

/-- Normalization as amended: the filter keeps a term iff its text is
non-empty AND (count > 0 or relevance_score > 0); sorting and truncation as
in the claim. -/
def specNormalizeFixed (n : ℕ) (ws : List (Word α)) : List (ScaledWord α) :=
  (((ws.filter fun w => decide (keepWord w)).insertionSort wordGE).take n).map mkScaled

unseal Rat.add Rat.mul Rat.sub Rat.inv List.merge List.mergeSort in
/-- C7 counterexample: the normalized list is NOT "the input with all terms
of non-positive weight removed, stably sorted, truncated".  Two failures:
`{keyword: "", count: 5}` has positive weight but is removed (empty text
fails the filter), and `{keyword: "x", count: -3, relevance: 5}` has
negative weight `count || relevance || 0 = -3` but is kept (the filter
tests `count > 0 || relevance > 0`, not the weight). -/
theorem claim_C7_counterexample :
    processWords (α := ℚ) 50 [⟨"", 5, 0⟩] ≠ specNormalize 50 [⟨"", 5, 0⟩] ∧
    processWords (α := ℚ) 50 [⟨"x", -3, 5⟩] ≠ specNormalize 50 [⟨"x", -3, 5⟩] := by
  decide

/-- C7 (amended): normalization equals the claim's pipeline with the filter
corrected to the code's: remove terms with empty text or with
`count ≤ 0 ∧ relevance_score ≤ 0`; then stable sort descending by weight
(`count || relevance_score || 0`), ties in original order, then truncate to
the first `maxTerms`; empty input yields an empty list. -/
theorem claim_C7_normalize (n : ℕ) (ws : List (Word α)) :
    processWords n ws = specNormalizeFixed n ws := by
  unfold processWords specNormalizeFixed
  rw [mergeSort_eq_stable_insertion]

/-! ## Claim C8 -/

unseal Rat.add Rat.mul Rat.sub Rat.inv List.merge List.mergeSort in
/-- C8 counterexample: monotonic sizing in the WEIGHT fails when terms mix
weight channels.  Term "a" (count 3, weight 3) and term "b"
(relevance_score 1/2, weight 1/2) are both placed; weight(a) > weight(b),
yet "a" is drawn at font 6 and "b" at font 24, because the displayed size of
"b" is `round(100 * relevance) = 50 > 3`. -/
theorem claim_C8_counterexample :
    wKey (⟨"a", 3, 0⟩ : Word ℚ) > wKey (⟨"b", 0, 1 / 2⟩ : Word ℚ) ∧
    ∃ p ∈ (layout (α := ℚ) (fun _ _ => 10) (fun _ => 1) (fun _ => 0)
        ⟨400, 300, 50, "youtube"⟩ [⟨"a", 3, 0⟩, ⟨"b", 0, 1 / 2⟩]).placements,
      ∃ q ∈ (layout (α := ℚ) (fun _ _ => 10) (fun _ => 1) (fun _ => 0)
          ⟨400, 300, 50, "youtube"⟩ [⟨"a", 3, 0⟩, ⟨"b", 0, 1 / 2⟩]).placements,
        p.text = "a" ∧ q.text = "b" ∧ p.fontSize < q.fontSize := by
  decide

theorem mkParams_range_pos (measure : String → ℤ → α) (cosA sinA : ℕ → α) (cfg : Config α)
    (processed : List (ScaledWord α)) (h : processed ≠ []) :
    0 < (mkParams measure cosA sinA cfg processed).range := by
  have hne : processed.map ScaledWord.size ≠ [] := by simpa using h
  simp only [mkParams, jsOr]
  split_ifs with h0
  · exact zero_lt_one
  · exact lt_of_le_of_ne (sub_nonneg.2 (listMin_le_listMax hne)) (Ne.symm h0)

theorem mkParams_minF_le_maxF (measure : String → ℤ → α) (cosA sinA : ℕ → α) (cfg : Config α)
    (processed : List (ScaledWord α)) (hw0 : 0 ≤ cfg.width) (hh0 : 0 ≤ cfg.height) :
    (mkParams measure cosA sinA cfg processed).minF ≤
      (mkParams measure cosA sinA cfg processed).maxF := by
  simp only [mkParams]
  have hm : (0 : α) ≤ min cfg.width cfg.height := le_min hw0 hh0
  apply mul_le_mul_of_nonneg_left _ hm
  norm_num

/-- C8 (amended): for a non-degenerate surface, the font size of a placed
term is monotone in its processed SIZE (`count`, or `round(100 * relevance)`
when the count is absent): if both are placed and `size(q) ≤ size(p)` then
`fontSize(q) ≤ fontSize(p)`.  Monotonicity in the raw weight holds only when
the compared terms draw their weight from the same channel. -/
theorem claim_C8_size_mono (measure : String → ℤ → α) (cosA sinA : ℕ → α)
    (cfg : Config α) (ws : List (Word α)) (p q : Placement α)
    (hw0 : 0 ≤ cfg.width) (hh0 : 0 ≤ cfg.height)
    (hp : p ∈ (layout measure cosA sinA cfg ws).placements)
    (hq : q ∈ (layout measure cosA sinA cfg ws).placements)
    (hle : q.size ≤ p.size) : q.fontSize ≤ p.fontSize := by
  by_cases h : processWords cfg.maxWords ws = []
  · rw [layout_of_empty measure cosA sinA cfg ws h] at hp
    simp at hp
  · rw [layout_of_ne measure cosA sinA cfg ws h] at hp hq
    obtain ⟨wp, hwp, -, hsp, hfp, -, -⟩ := runWords_mem_shape _ _ 0 [] p hp
    obtain ⟨wq, hwq, -, hsq, hfq, -, -⟩ := runWords_mem_shape _ _ 0 [] q hq
    rw [hfp, hfq]
    apply fontSizeOf_mono (mkParams_range_pos measure cosA sinA cfg _ h)
      (mkParams_minF_le_maxF measure cosA sinA cfg _ hw0 hh0)
    rw [← hsp, ← hsq]
    exact hle

unseal Rat.add Rat.mul Rat.sub Rat.inv List.merge List.mergeSort in
/-- C8 witness: the amended monotonicity theorem at a concrete layout. -/
theorem claim_C8_size_mono_witness :
    ((0 : ℚ) ≤ 400 ∧ (0 : ℚ) ≤ 300 ∧
     (⟨"b", 215, 162, 24, "#ea580c", 50, ⟨210, 133, 20, 34⟩⟩ : Placement ℚ) ∈
        (layout (α := ℚ) (fun _ _ => 10) (fun _ => 1) (fun _ => 0)
          ⟨400, 300, 50, "youtube"⟩ [⟨"a", 3, 0⟩, ⟨"b", 0, 1 / 2⟩]).placements ∧
     (⟨"a", 195, 153, 6, "#dc2626", 3, ⟨190, 142, 20, 16⟩⟩ : Placement ℚ) ∈
        (layout (α := ℚ) (fun _ _ => 10) (fun _ => 1) (fun _ => 0)
          ⟨400, 300, 50, "youtube"⟩ [⟨"a", 3, 0⟩, ⟨"b", 0, 1 / 2⟩]).placements ∧
     (3 : ℚ) ≤ 50) ∧
    (6 : ℚ) ≤ 24 :=
  ⟨⟨by decide, by decide, by decide, by decide, by decide⟩,
   claim_C8_size_mono (fun _ _ => 10) (fun _ => 1) (fun _ => 0) ⟨400, 300, 50, "youtube"⟩
     [⟨"a", 3, 0⟩, ⟨"b", 0, 1 / 2⟩]
     ⟨"b", 215, 162, 24, "#ea580c", 50, ⟨210, 133, 20, 34⟩⟩
     ⟨"a", 195, 153, 6, "#dc2626", 3, ⟨190, 142, 20, 16⟩⟩
     (by decide) (by decide) (by decide) (by decide) (by decide)⟩

end WordCloud

namespace WordCloud

variable {α : Type} [LinearOrderedField α] [FloorRing α]

/-! ## Claim C6 -/

theorem runWords_text_sublist (P : LayoutParams α) :
    ∀ (ws : List (ScaledWord α)) (idx : ℕ) (boxes : List (Box α)),
      ((runWords P idx boxes ws).1.map Placement.text).Sublist
        (ws.map ScaledWord.text) := by
  intro ws
  induction ws with
  | nil => intro idx boxes; simp [runWords]
  | cons w ws ih =>
    intro idx boxes
    simp only [runWords]
    split
    · exact List.Sublist.cons₂ w.text (ih _ _)
    · exact List.Sublist.cons w.text (ih _ _)

/-- C6: Spiral search — the candidate position of attempt `j` sits at radius
`2 * j` from the surface center in the direction given by the injected
cosine/sine of the attempt angle (`Math.cos((j * 0.5) % 2π)`), offset to
center the text; the spiral search accepts exactly the FIRST attempt below
`maxAttempts = 50` that is in bounds and collision-free (no later candidate
is considered, and the accepted box is registered); and terms are attempted
one at a time in weight-descending rank order, placements keeping that
order. -/
theorem claim_C6_spiral (measure : String → ℤ → α) (cosA sinA : ℕ → α)
    (cfg : Config α) (ws : List (Word α)) :
    (∀ (P : LayoutParams α) (boxes : List (Box α)) (tw th x y : α),
      findSpot P boxes tw th = some (x, y) ↔
        ∃ j, j < maxAttempts ∧
          x = P.W / 2 + P.cosA j * (2 * (j : α)) - tw / 2 ∧
          y = P.H / 2 + P.sinA j * (2 * (j : α)) + th / 2 ∧
          Accepts P boxes tw th j ∧ ∀ k, k < j → ¬ Accepts P boxes tw th k) ∧
    List.Pairwise (fun a b => sKey b ≤ sKey a) (processWords cfg.maxWords ws) ∧
    ((layout measure cosA sinA cfg ws).placements.map Placement.text).Sublist
      ((processWords cfg.maxWords ws).map ScaledWord.text) := by
  refine ⟨?_, processWords_sorted _ _, ?_⟩
  · intro P boxes tw th x y
    rw [findSpot_some_iff]
    constructor
    · rintro ⟨j, hj, hacc, hfirst, hx, hy⟩
      exact ⟨j, hj, by simpa [candX] using hx, by simpa [candY] using hy, hacc, hfirst⟩
    · rintro ⟨j, hj, hx, hy, hacc, hfirst⟩
      exact ⟨j, hj, hacc, hfirst, by simpa [candX] using hx, by simpa [candY] using hy⟩
  · by_cases h : processWords cfg.maxWords ws = []
    · rw [layout_of_empty measure cosA sinA cfg ws h, h]
      simp
    · rw [layout_of_ne measure cosA sinA cfg ws h]
      exact runWords_text_sublist _ _ 0 []

/-! ## Claim C9 -/

unseal Rat.add Rat.mul Rat.sub Rat.inv List.merge List.mergeSort in
/-- C9 counterexample: an invalid surface (`width = -10 < 0`) is NOT treated
as empty input: the placement loop still runs, every attempt fails the
bounds check, and the surviving term lands in the dropped set — so the
result does not have an empty dropped set. -/
theorem claim_C9_counterexample :
    ¬ ((layout (α := ℚ) (fun _ _ => 10) (fun _ => 1) (fun _ => 0)
          ⟨-10, 300, 50, "youtube"⟩ [⟨"a", 1, 0⟩]).placements = [] ∧
       (layout (α := ℚ) (fun _ _ => 10) (fun _ => 1) (fun _ => 0)
          ⟨-10, 300, 50, "youtube"⟩ [⟨"a", 1, 0⟩]).dropped = []) := by
  decide

/-- C9 (amended): there is no guard on the surface size; for a strictly
negative width or height (with non-negative measured text widths) the loop
still runs, no attempt ever passes the bounds check, so no placement is
produced and EVERY normalized term is recorded in the dropped set (no error
is raised) — rather than the claimed empty dropped set with no computation
attempted. -/
theorem claim_C9_invalid_surface (measure : String → ℤ → α) (cosA sinA : ℕ → α)
    (cfg : Config α) (ws : List (Word α))
    (hm : ∀ t k, 0 ≤ measure t k)
    (hbad : cfg.width < 0 ∨ cfg.height < 0) :
    (layout measure cosA sinA cfg ws).placements = [] ∧
    (layout measure cosA sinA cfg ws).dropped = processWords cfg.maxWords ws := by
  by_cases h : processWords cfg.maxWords ws = []
  · rw [layout_of_empty measure cosA sinA cfg ws h]
    exact ⟨rfl, h.symm⟩
  · rw [layout_of_ne measure cosA sinA cfg ws h]
    have hall : ∀ w ∈ processWords cfg.maxWords ws, ∀ bs,
        findSpot (mkParams measure cosA sinA cfg (processWords cfg.maxWords ws)) bs
          (twOf (mkParams measure cosA sinA cfg (processWords cfg.maxWords ws)) w)
          (fontSizeOf (mkParams measure cosA sinA cfg (processWords cfg.maxWords ws)) w) =
          none := by
      intro w hw bs
      rw [findSpot_none_iff]
      intro j _
      by_cases hW0 : cfg.width < 0
      · exact no_accept_neg_width hW0 (hm _ _)
      · push_neg at hW0
        have hH : cfg.height < 0 := by
          rcases hbad with hW | hH
          · exact absurd hW (not_lt.2 hW0)
          · exact hH
        apply no_accept_tall
        have hmin : min cfg.width cfg.height = cfg.height := min_eq_right (hH.le.trans hW0)
        have hnorm := mkParams_norm_le_one measure cosA sinA cfg
          (processWords cfg.maxWords ws) w hw
        have hFF : (mkParams measure cosA sinA cfg (processWords cfg.maxWords ws)).maxF ≤
            (mkParams measure cosA sinA cfg (processWords cfg.maxWords ws)).minF := by
          simp only [mkParams, hmin]
          linarith
        have h1 := fontSizeOf_ge_maxF hFF hnorm
        have h2 : cfg.height <
            (mkParams measure cosA sinA cfg (processWords cfg.maxWords ws)).maxF := by
          simp only [mkParams, hmin]
          linarith
        exact lt_of_lt_of_le h2 h1
    rw [runWords_all_none _ _ 0 [] hall]
    exact ⟨rfl, rfl⟩

unseal Rat.add Rat.mul Rat.sub Rat.inv List.merge List.mergeSort in
/-- C9 witness: the amended invalid-surface theorem at a concrete input. -/
theorem claim_C9_invalid_surface_witness :
    (layout (α := ℚ) (fun _ _ => 10) (fun _ => 1) (fun _ => 0)
        ⟨-10, 300, 50, "youtube"⟩ [⟨"a", 1, 0⟩]).placements = [] ∧
    (layout (α := ℚ) (fun _ _ => 10) (fun _ => 1) (fun _ => 0)
        ⟨-10, 300, 50, "youtube"⟩ [⟨"a", 1, 0⟩]).dropped =
      processWords 50 [⟨"a", 1, 0⟩] :=
  claim_C9_invalid_surface (fun _ _ => 10) (fun _ => 1) (fun _ => 0)
    ⟨-10, 300, 50, "youtube"⟩ [⟨"a", 1, 0⟩] (fun _ _ => (by decide : (0 : ℚ) ≤ 10))
    (Or.inl (by decide))

end WordCloud

namespace WordCloud

variable {α : Type} [LinearOrderedField α] [FloorRing α]

/-! ## Claim C10 -/

theorem candX_zero (P : LayoutParams α) (tw : α) : candX P tw 0 = P.W / 2 - tw / 2 := by
  unfold candX
  push_cast
  ring

theorem candY_zero (P : LayoutParams α) (th : α) : candY P th 0 = P.H / 2 + th / 2 := by
  unfold candY
  push_cast
  ring

theorem accepts_zero_of_fits (P : LayoutParams α) {tw th : α}
    (htw : tw ≤ P.W) (hth : th ≤ P.H) : Accepts P [] tw th 0 := by
  refine ⟨?_, ?_⟩
  · unfold InBounds
    rw [candX_zero, candY_zero]
    refine ⟨by linarith, by linarith, by linarith, by linarith⟩
  · rintro ⟨p, hp, -⟩
    simp at hp

theorem runWords_cons_some (P : LayoutParams α) (idx : ℕ) (boxes : List (Box α))
    (w : ScaledWord α) (ws : List (ScaledWord α)) (x y : α)
    (hfind : findSpot P boxes (P.measure w.text (jsRound (fontSizeOf P w)))
      (fontSizeOf P w) = some (x, y)) :
    runWords P idx boxes (w :: ws) =
      (⟨w.text, x, y, fontSizeOf P w, P.colors.getD (idx % P.colors.length) "", w.size,
          inflate x y (P.measure w.text (jsRound (fontSizeOf P w))) (fontSizeOf P w)⟩ ::
        (runWords P (idx + 1)
          (boxes ++
            [inflate x y (P.measure w.text (jsRound (fontSizeOf P w))) (fontSizeOf P w)])
          ws).1,
       (runWords P (idx + 1)
          (boxes ++
            [inflate x y (P.measure w.text (jsRound (fontSizeOf P w))) (fontSizeOf P w)])
          ws).2) := by
  simp only [runWords]
  rw [hfind]

/-- C10 (implicit): the highest-weight processed term is attempted first at
radius 0, so whenever its measured width fits the surface width and its font
size fits the surface height, it is placed — as the FIRST placement,
centered at `x = width/2 - textWidth/2`, `y = height/2 + fontSize/2` —
regardless of any other term. -/
theorem claim_C10_first_centered (measure : String → ℤ → α) (cosA sinA : ℕ → α)
    (cfg : Config α) (ws : List (Word α)) (w : ScaledWord α) (rest : List (ScaledWord α))
    (hproc : processWords cfg.maxWords ws = w :: rest)
    (htw : twOf (mkParams measure cosA sinA cfg (w :: rest)) w ≤ cfg.width)
    (hth : fontSizeOf (mkParams measure cosA sinA cfg (w :: rest)) w ≤ cfg.height) :
    (∀ v ∈ processWords cfg.maxWords ws, sKey v ≤ sKey w) ∧
    ((layout measure cosA sinA cfg ws).placements.head?.map
        (fun p => (p.text, p.x, p.y, p.fontSize))) =
      some (w.text,
        cfg.width / 2 - twOf (mkParams measure cosA sinA cfg (w :: rest)) w / 2,
        cfg.height / 2 + fontSizeOf (mkParams measure cosA sinA cfg (w :: rest)) w / 2,
        fontSizeOf (mkParams measure cosA sinA cfg (w :: rest)) w) := by
  have hne : processWords cfg.maxWords ws ≠ [] := by
    rw [hproc]
    exact List.cons_ne_nil w rest
  constructor
  · have hs := processWords_sorted cfg.maxWords ws
    rw [hproc] at hs
    intro v hv
    rw [hproc] at hv
    rcases List.mem_cons.1 hv with rfl | hv
    · exact le_refl _
    · exact (List.pairwise_cons.1 hs).1 v hv
  · rw [layout_of_ne measure cosA sinA cfg ws hne, hproc]
    have hacc : Accepts (mkParams measure cosA sinA cfg (w :: rest)) []
        (twOf (mkParams measure cosA sinA cfg (w :: rest)) w)
        (fontSizeOf (mkParams measure cosA sinA cfg (w :: rest)) w) 0 :=
      accepts_zero_of_fits _ htw hth
    have hfind : findSpot (mkParams measure cosA sinA cfg (w :: rest)) []
        (twOf (mkParams measure cosA sinA cfg (w :: rest)) w)
        (fontSizeOf (mkParams measure cosA sinA cfg (w :: rest)) w) =
        some (candX (mkParams measure cosA sinA cfg (w :: rest))
            (twOf (mkParams measure cosA sinA cfg (w :: rest)) w) 0,
          candY (mkParams measure cosA sinA cfg (w :: rest))
            (fontSizeOf (mkParams measure cosA sinA cfg (w :: rest)) w) 0) :=
      (findSpot_some_iff _ _ _ _ _ _).2
        ⟨0, by norm_num [maxAttempts], hacc,
          fun k hk => absurd hk (Nat.not_lt_zero k), rfl, rfl⟩
    have heq := runWords_cons_some (mkParams measure cosA sinA cfg (w :: rest)) 0 [] w rest
      _ _ hfind
    rw [heq]
    simp only [List.head?_cons, Option.map_some']
    rw [candX_zero, candY_zero]
    rfl

unseal Rat.add Rat.mul Rat.sub Rat.inv List.merge List.mergeSort in
/-- C10 witness: the first-term-centered theorem at a concrete input. -/
theorem claim_C10_first_centered_witness :
    (processWords (α := ℚ) 50 [⟨"a", 7, 0⟩] = [⟨"a", 7, 7, 0⟩] ∧
     twOf (mkParams (α := ℚ) (fun _ _ => 10) (fun _ => 1) (fun _ => 0)
         ⟨400, 300, 50, "youtube"⟩ [⟨"a", 7, 7, 0⟩]) ⟨"a", 7, 7, 0⟩ ≤ 400 ∧
     fontSizeOf (mkParams (α := ℚ) (fun _ _ => 10) (fun _ => 1) (fun _ => 0)
         ⟨400, 300, 50, "youtube"⟩ [⟨"a", 7, 7, 0⟩]) ⟨"a", 7, 7, 0⟩ ≤ 300) ∧
    ((∀ v ∈ processWords (α := ℚ) 50 [⟨"a", 7, 0⟩],
        sKey v ≤ sKey (⟨"a", 7, 7, 0⟩ : ScaledWord ℚ)) ∧
     ((layout (α := ℚ) (fun _ _ => 10) (fun _ => 1) (fun _ => 0)
            ⟨400, 300, 50, "youtube"⟩ [⟨"a", 7, 0⟩]).placements.head?.map
          (fun p => (p.text, p.x, p.y, p.fontSize))) =
        some ("a",
          400 / 2 - twOf (mkParams (α := ℚ) (fun _ _ => 10) (fun _ => 1) (fun _ => 0)
              ⟨400, 300, 50, "youtube"⟩ [⟨"a", 7, 7, 0⟩]) ⟨"a", 7, 7, 0⟩ / 2,
          300 / 2 + fontSizeOf (mkParams (α := ℚ) (fun _ _ => 10) (fun _ => 1) (fun _ => 0)
              ⟨400, 300, 50, "youtube"⟩ [⟨"a", 7, 7, 0⟩]) ⟨"a", 7, 7, 0⟩ / 2,
          fontSizeOf (mkParams (α := ℚ) (fun _ _ => 10) (fun _ => 1) (fun _ => 0)
              ⟨400, 300, 50, "youtube"⟩ [⟨"a", 7, 7, 0⟩]) ⟨"a", 7, 7, 0⟩)) :=
  ⟨⟨by decide, by decide, by decide⟩,
   claim_C10_first_centered (fun _ _ => 10) (fun _ => 1) (fun _ => 0)
     ⟨400, 300, 50, "youtube"⟩ [⟨"a", 7, 0⟩] ⟨"a", 7, 7, 0⟩ []
     (by decide) (by decide) (by decide)⟩

end WordCloud
